import Mathlib

/-!
Verification of the job-execution runtime of `lima-content`
(`src/runtime/{jobs,retrying,progress,rate_limit,runner}.py`), shallowly
embedded in Lean 4.  Machine floats used for tokens, elapsed time and ETA
are modelled by exact rationals; Python dict insertion-order semantics are
modelled explicitly by association lists.
-/

namespace LimaContent

/-! ## Job model (`src/runtime/jobs.py`) -/

/-- A single unit of work (`@dataclass(frozen=True) class Job`).  The payload
is an opaque key-value map; here it is kept only as an opaque tag since the
functions under study never inspect it. -/
structure Job where
  step : String
  payload : Nat
  entity_key : String
  deriving DecidableEq, Repr

/-- Property `Job.job_id`: `f"{self.step}:{self.entity_key}"`. -/
def Job.job_id (j : Job) : String :=
  j.step ++ ":" ++ j.entity_key

/-- One `seen[job.entity_key] = job` assignment with CPython dict semantics:
if the key is present its value is replaced in place (the key keeps its
original position); otherwise the pair is appended at the end. -/
def dictInsert (m : List (String × Job)) (k : String) (v : Job) :
    List (String × Job) :=
  if m.any (fun p => p.1 = k) then
    m.map (fun p => if p.1 = k then (k, v) else p)
  else
    m ++ [(k, v)]

/-- The `seen` dict after the `for job in jobs` loop of `deduplicate_jobs`. -/
def dedupMap (jobs : List Job) : List (String × Job) :=
  jobs.foldl (fun m j => dictInsert m j.entity_key j) []

/-- Function `deduplicate_jobs(jobs)`: build the `seen` dict with last-write-wins
values, then return `list(seen.values())`. -/
def deduplicate_jobs (jobs : List Job) : List Job :=
  (dedupMap jobs).map (fun p => p.2)

/-- First-occurrence deduplication of a key sequence: the key order a CPython
dict ends up with after inserting the keys in order. -/
def firstOccurrenceKeys (ks : List String) : List String :=
  ks.foldl (fun acc k => if k ∈ acc then acc else acc ++ [k]) []

/-- The last element of `jobs` carrying entity key `k`, if any. -/
def lastWithKey (jobs : List Job) (k : String) : Option Job :=
  (jobs.filter (fun j => j.entity_key = k)).getLast?

/-- Deduplication as the spec sentence words it: the surviving job for a key
is the last one in input order, and the output order is the insertion order
of the last occurrences.  (For comparison with `deduplicate_jobs`.) -/
def specDedupLastOrder (jobs : List Job) : List Job :=
  jobs.foldl
    (fun acc j => (acc.filter (fun x => x.entity_key ≠ j.entity_key)) ++ [j])
    []

/-- Lookup in an association list: the value of the first pair whose key
matches (how a dict read would behave). -/
def lookupKey : List (String × Job) → String → Option Job
  | [], _ => none
  | p :: rest, k => if p.1 = k then some p.2 else lookupKey rest k

theorem lookupKey_append (m m' : List (String × Job)) (k : String) :
    lookupKey (m ++ m') k =
      ((lookupKey m k).rec (lookupKey m' k) (fun v => some v)) := by
  induction m with
  | nil => simp [lookupKey]
  | cons p rest ih =>
      by_cases h : p.1 = k <;> simp [lookupKey, h, ih]

theorem dictInsert_keys (m : List (String × Job)) (k : String) (v : Job) :
    (dictInsert m k v).map Prod.fst =
      if k ∈ m.map Prod.fst then m.map Prod.fst
      else m.map Prod.fst ++ [k] := by
  unfold dictInsert
  by_cases h : m.any (fun p => p.1 = k)
  · have hk : k ∈ m.map Prod.fst := by
      simp only [List.any_eq_true, decide_eq_true_eq] at h
      obtain ⟨p, hp, hpk⟩ := h
      exact List.mem_map.mpr ⟨p, hp, hpk⟩
    simp only [h, if_true, hk, List.map_map]
    apply List.map_congr_left
    intro p _
    by_cases hpk : p.1 = k <;> simp [hpk]
  · have hk : k ∉ m.map Prod.fst := by
      simp only [List.any_eq_true, decide_eq_true_eq] at h
      intro hmem
      obtain ⟨p, hp, hpk⟩ := List.mem_map.mp hmem
      exact h ⟨p, hp, hpk⟩
    simp [h, hk]

theorem lookupKey_replace_ne (m : List (String × Job)) (k k' : String)
    (v : Job) (hne : k' ≠ k) :
    lookupKey (m.map (fun p => if p.1 = k then (k, v) else p)) k' =
      lookupKey m k' := by
  induction m with
  | nil => rfl
  | cons p rest ih =>
      by_cases hpk : p.1 = k
      · simp [lookupKey, hpk, Ne.symm hne, ih]
      · simp [lookupKey, hpk, ih]

theorem lookupKey_replace_eq (m : List (String × Job)) (k : String)
    (v : Job) (h : ∃ p ∈ m, p.1 = k) :
    lookupKey (m.map (fun p => if p.1 = k then (k, v) else p)) k =
      some v := by
  induction m with
  | nil => simp at h
  | cons p rest ih =>
      by_cases hpk : p.1 = k
      · simp [lookupKey, hpk]
      · have : ∃ q ∈ rest, q.1 = k := by
          obtain ⟨q, hq, hqk⟩ := h
          rcases List.mem_cons.mp hq with rfl | hq'
          · exact absurd hqk hpk
          · exact ⟨q, hq', hqk⟩
        simp [lookupKey, hpk, ih this]

theorem lookupKey_none_of_not_mem (m : List (String × Job)) (k : String)
    (h : ∀ p ∈ m, p.1 ≠ k) : lookupKey m k = none := by
  induction m with
  | nil => rfl
  | cons p rest ih =>
      simp only [lookupKey, if_neg (h p (List.mem_cons_self p rest))]
      exact ih (fun q hq => h q (List.mem_cons_of_mem p hq))

theorem lookupKey_dictInsert (m : List (String × Job)) (k k' : String)
    (v : Job) :
    lookupKey (dictInsert m k v) k' =
      if k' = k then some v else lookupKey m k' := by
  unfold dictInsert
  by_cases h : m.any (fun p => p.1 = k)
  · simp only [List.any_eq_true, decide_eq_true_eq] at h
    simp only [List.any_eq_true, decide_eq_true_eq, h, if_true]
    by_cases hk' : k' = k
    · subst hk'
      simp [lookupKey_replace_eq m k' v h]
    · simp [hk', lookupKey_replace_ne m k k' v hk']
  · simp only [List.any_eq_true, decide_eq_true_eq] at h
    push_neg at h
    simp only [List.any_eq_true, decide_eq_true_eq]
    rw [if_neg (by push_neg; exact h), lookupKey_append]
    by_cases hk' : k' = k
    · subst hk'
      rw [lookupKey_none_of_not_mem m k' h]
      simp [lookupKey]
    · cases hm : lookupKey m k' <;>
        simp [hm, lookupKey, hk', Ne.symm hk']

theorem foldl_keys (jobs : List Job) (m : List (String × Job)) :
    ((jobs.foldl (fun m j => dictInsert m j.entity_key j) m).map Prod.fst) =
      (jobs.map Job.entity_key).foldl
        (fun acc k => if k ∈ acc then acc else acc ++ [k])
        (m.map Prod.fst) := by
  induction jobs generalizing m with
  | nil => rfl
  | cons j rest ih =>
      simp only [List.foldl_cons, List.map_cons]
      rw [ih, dictInsert_keys]

theorem dedupMap_keys (jobs : List Job) :
    (dedupMap jobs).map Prod.fst =
      firstOccurrenceKeys (jobs.map Job.entity_key) := by
  unfold dedupMap firstOccurrenceKeys
  simpa using foldl_keys jobs []

theorem firstOccurrenceKeys_fold_nodup (ks : List String)
    (acc : List String) (hacc : acc.Nodup) :
    (ks.foldl (fun acc k => if k ∈ acc then acc else acc ++ [k]) acc).Nodup := by
  induction ks generalizing acc with
  | nil => exact hacc
  | cons k rest ih =>
      simp only [List.foldl_cons]
      by_cases hk : k ∈ acc
      · simp only [hk, if_true]
        exact ih acc hacc
      · simp only [hk, if_false]
        exact ih (acc ++ [k]) (by simp [List.nodup_append, hacc, hk])

theorem firstOccurrenceKeys_nodup (ks : List String) :
    (firstOccurrenceKeys ks).Nodup :=
  firstOccurrenceKeys_fold_nodup ks [] List.nodup_nil

theorem dedupMap_pair_key (jobs : List Job) :
    ∀ p ∈ dedupMap jobs, p.1 = p.2.entity_key := by
  unfold dedupMap
  suffices h : ∀ m : List (String × Job),
      (∀ p ∈ m, p.1 = p.2.entity_key) →
      ∀ p ∈ jobs.foldl (fun m j => dictInsert m j.entity_key j) m,
        p.1 = p.2.entity_key by
    exact h [] (by simp)
  induction jobs with
  | nil => intro m hm; simpa using hm
  | cons j rest ih =>
      intro m hm
      simp only [List.foldl_cons]
      apply ih
      intro p hp
      unfold dictInsert at hp
      by_cases hany : m.any (fun q => q.1 = j.entity_key)
      · simp only [hany, if_true] at hp
        obtain ⟨q, hq, hqe⟩ := List.mem_map.mp hp
        by_cases hqk : q.1 = j.entity_key
        · simp only [hqk, if_true] at hqe
          rw [← hqe]
        · simp only [hqk, if_false] at hqe
          rw [← hqe]; exact hm q hq
      · rw [if_neg hany] at hp
        rcases List.mem_append.mp hp with hp | hp
        · exact hm p hp
        · simp only [List.mem_singleton] at hp
          rw [hp]

theorem dedupMap_append_single (jobs : List Job) (j : Job) :
    dedupMap (jobs ++ [j]) = dictInsert (dedupMap jobs) j.entity_key j := by
  unfold dedupMap
  rw [List.foldl_append]
  rfl

theorem lastWithKey_append_single (jobs : List Job) (j : Job) (k : String) :
    lastWithKey (jobs ++ [j]) k =
      if j.entity_key = k then some j else lastWithKey jobs k := by
  unfold lastWithKey
  rw [List.filter_append]
  by_cases hk : j.entity_key = k
  · simp [hk, List.getLast?_append]
  · simp [hk]

theorem lookupKey_dedupMap (jobs : List Job) (k : String) :
    lookupKey (dedupMap jobs) k = lastWithKey jobs k := by
  induction jobs using List.reverseRecOn with
  | nil => rfl
  | append_singleton rest j ih =>
      rw [dedupMap_append_single, lookupKey_dictInsert,
        lastWithKey_append_single, ih]
      by_cases hk : k = j.entity_key
      · simp [hk]
      · simp [hk, Ne.symm hk]

theorem lookupKey_of_mem_nodup (m : List (String × Job)) (k : String)
    (v : Job) (hnd : (m.map Prod.fst).Nodup) (hmem : (k, v) ∈ m) :
    lookupKey m k = some v := by
  induction m with
  | nil => simp at hmem
  | cons p rest ih =>
      simp only [List.map_cons, List.nodup_cons] at hnd
      rcases List.mem_cons.mp hmem with rfl | hmem'
      · simp [lookupKey]
      · have hpk : p.1 ≠ k := by
          intro hpk
          exact hnd.1 (hpk ▸ List.mem_map.mpr ⟨(k, v), hmem', rfl⟩)
        simp only [lookupKey, if_neg hpk]
        exact ih hnd.2 hmem'

theorem deduplicate_jobs_keys (jobs : List Job) :
    (deduplicate_jobs jobs).map Job.entity_key =
      (dedupMap jobs).map Prod.fst := by
  unfold deduplicate_jobs
  rw [List.map_map]
  apply List.map_congr_left
  intro p hp
  exact (dedupMap_pair_key jobs p hp).symm

theorem mem_deduplicate_jobs_last (jobs : List Job) (j : Job)
    (hj : j ∈ deduplicate_jobs jobs) :
    lastWithKey jobs j.entity_key = some j := by
  unfold deduplicate_jobs at hj
  obtain ⟨p, hp, hpj⟩ := List.mem_map.mp hj
  have hkey : p.1 = j.entity_key := by
    rw [dedupMap_pair_key jobs p hp, hpj]
  have hpair : (j.entity_key, j) ∈ dedupMap jobs := by
    have : p = (j.entity_key, j) := by
      cases p with
      | mk a b => rw [Prod.mk.injEq]; exact ⟨hkey, hpj⟩
    rwa [this] at hp
  have hnd : ((dedupMap jobs).map Prod.fst).Nodup := by
    rw [dedupMap_keys]
    exact firstOccurrenceKeys_nodup _
  rw [← lookupKey_dedupMap]
  exact lookupKey_of_mem_nodup _ _ _ hnd hpair

/-- C1: `deduplicate_jobs` output has unique entity keys and for colliding
keys the last job in input order survives; but — correcting the claim's
ordering part — a surviving job sits at the position of its key's FIRST
occurrence in the input (CPython dicts keep a key's original position when
its value is overwritten), not at the position of its last occurrence. -/
theorem dedup_unique_lastwins_firstOccurrenceOrder (jobs : List Job) :
    ((deduplicate_jobs jobs).map Job.entity_key).Nodup ∧
    (deduplicate_jobs jobs).map Job.entity_key =
      firstOccurrenceKeys (jobs.map Job.entity_key) ∧
    ∀ j ∈ deduplicate_jobs jobs, lastWithKey jobs j.entity_key = some j := by
  refine ⟨?_, ?_, ?_⟩
  · rw [deduplicate_jobs_keys, dedupMap_keys]
    exact firstOccurrenceKeys_nodup _
  · rw [deduplicate_jobs_keys, dedupMap_keys]
  · exact mem_deduplicate_jobs_last jobs

/-- Witness for the amended C1 theorem at a concrete job list: key "a"
collides, the payload-3 job (last occurrence) survives. -/
theorem dedup_unique_lastwins_firstOccurrenceOrder_witness :
    lastWithKey [⟨"s", 1, "a"⟩, ⟨"s", 2, "b"⟩, ⟨"s", 3, "a"⟩] "a" =
      some ⟨"s", 3, "a"⟩ :=
  (dedup_unique_lastwins_firstOccurrenceOrder
      [⟨"s", 1, "a"⟩, ⟨"s", 2, "b"⟩, ⟨"s", 3, "a"⟩]).2.2
    ⟨"s", 3, "a"⟩ (by decide)

/-- C1 counterexample: on jobs with keys a, b, a the code returns the
survivors in first-occurrence key order `[a-job, b-job]`, while the claim's
last-occurrence insertion order would be `[b-job, a-job]`. -/
theorem dedup_order_counterexample :
    deduplicate_jobs [⟨"s", 1, "a"⟩, ⟨"s", 2, "b"⟩, ⟨"s", 3, "a"⟩] =
      [⟨"s", 3, "a"⟩, ⟨"s", 2, "b"⟩] ∧
    specDedupLastOrder [⟨"s", 1, "a"⟩, ⟨"s", 2, "b"⟩, ⟨"s", 3, "a"⟩] =
      [⟨"s", 2, "b"⟩, ⟨"s", 3, "a"⟩] ∧
    deduplicate_jobs [⟨"s", 1, "a"⟩, ⟨"s", 2, "b"⟩, ⟨"s", 3, "a"⟩] ≠
      specDedupLastOrder [⟨"s", 1, "a"⟩, ⟨"s", 2, "b"⟩, ⟨"s", 3, "a"⟩] := by
  refine ⟨by decide, by decide, by decide⟩

/-! ## Retry policy (`src/runtime/retrying.py`) -/

/-- Classification of what one call of the wrapped function does, following
the `except` clauses of `retry`: return normally, raise `FatalStepError`,
raise `RetryableStepError`, or raise any other exception. -/
inductive CallResult where
  | ok
  | fatal
  | retryable
  | other
  deriving DecidableEq, Repr

/-- How the `retry` wrapper terminates: normal return, `FatalStepError`
re-raised, `JobRetryExceededError` raised after exhaustion, or the
`IndexError` from evaluating `delays[-1]` on an empty delays tuple. -/
inductive Outcome where
  | success
  | fatalRaised
  | exhausted
  | indexError
  deriving DecidableEq, Repr

/-- Observable trace of one `retry`-wrapped run: how many times the wrapped
function was invoked, the sleep durations performed between attempts (in
order), and how the wrapper terminated. -/
structure RunResult where
  calls : Nat
  sleeps : List Int
  outcome : Outcome
  deriving DecidableEq, Repr

/-- The `for attempt in range(1, attempts + 1)` loop of `retry.wrapper`,
from attempt number `a` with `rem` further attempts allowed after this one
(so `attempts = a + rem`).  `f n` is what the wrapped function does on its
`n`-th invocation.  On a retryable/unclassified failure with attempts
remaining, Python evaluates `delays[min(attempt - 1, len(delays) - 1)]`,
which on an empty tuple is `delays[-1]` and raises `IndexError`. -/
def retryAux (delays : List Int) (f : Nat → CallResult) :
    Nat → Nat → RunResult
  | a, rem =>
    match f a with
    | .ok => ⟨a, [], .success⟩
    | .fatal => ⟨a, [], .fatalRaised⟩
    | .retryable | .other =>
      match rem with
      | 0 => ⟨a, [], .exhausted⟩
      | rem' + 1 =>
        if delays.isEmpty then ⟨a, [], .indexError⟩
        else
          let d := delays.getD (min (a - 1) (delays.length - 1)) 0
          let r := retryAux delays f (a + 1) rem'
          ⟨r.calls, d :: r.sleeps, r.outcome⟩

/-- Decorator `retry(attempts, delays_sec)` applied to an operation whose `n`-th call
behaves as `f n`.  With `attempts = 0` the loop body never runs and the
wrapper returns `None` (modelled as a 0-call success). -/
def retry (attempts : Nat) (delays : List Int) (f : Nat → CallResult) :
    RunResult :=
  if attempts = 0 then ⟨0, [], .success⟩
  else retryAux delays f 1 (attempts - 1)

theorem retryAux_all_fail (delays : List Int) (f : Nat → CallResult)
    (hd : delays ≠ []) (hf : ∀ n, f n = .retryable ∨ f n = .other) :
    ∀ rem a, (retryAux delays f a rem).calls = a + rem ∧
      (retryAux delays f a rem).outcome = .exhausted := by
  intro rem
  induction rem with
  | zero =>
      intro a
      rcases hf a with h | h <;> simp [retryAux, h]
  | succ rem' ih =>
      intro a
      have hne : delays.isEmpty = false := by
        cases delays with
        | nil => exact absurd rfl hd
        | cons x xs => rfl
      rcases hf a with h | h <;>
        · simp only [retryAux, h, hne, Bool.false_eq_true, if_false]
          have := ih (a + 1)
          constructor
          · rw [this.1]; omega
          · exact this.2

theorem retryAux_fatal_first (delays : List Int) (g : Nat → CallResult)
    (a rem : Nat) (hg : g a = .fatal) :
    retryAux delays g a rem = ⟨a, [], .fatalRaised⟩ := by
  cases rem <;> simp [retryAux, hg]

/-- C2 (amended with a non-empty delays sequence): a permanently
retryable/unclassified-failing operation is invoked exactly `attempts`
times and the wrapper ends by raising `JobRetryExceededError`; an
operation that raises `FatalStepError` on its first call is invoked
exactly once, no sleeps happen, and the fatal error propagates at once. -/
theorem retry_exhaustion_and_fatal (attempts : Nat) (delays : List Int)
    (f g : Nat → CallResult) (h1 : 1 ≤ attempts) (hd : delays ≠ [])
    (hf : ∀ n, f n = .retryable ∨ f n = .other) (hg : g 1 = .fatal) :
    (retry attempts delays f).calls = attempts ∧
    (retry attempts delays f).outcome = .exhausted ∧
    retry attempts delays g = ⟨1, [], .fatalRaised⟩ := by
  have hne : attempts ≠ 0 := by omega
  unfold retry
  rw [if_neg hne, if_neg hne]
  have h := retryAux_all_fail delays f hd hf (attempts - 1) 1
  refine ⟨?_, h.2, retryAux_fatal_first delays g 1 (attempts - 1) hg⟩
  rw [h.1]; omega

/-- Witness for the amended C2 at `attempts = 3`, `delays = [5, 10]`. -/
theorem retry_exhaustion_and_fatal_witness :
    (retry 3 [5, 10] (fun _ => .retryable)).calls = 3 ∧
    (retry 3 [5, 10] (fun _ => .retryable)).outcome = .exhausted ∧
    retry 3 [5, 10] (fun _ => .fatal) = ⟨1, [], .fatalRaised⟩ :=
  retry_exhaustion_and_fatal 3 [5, 10] (fun _ => .retryable)
    (fun _ => .fatal) (by decide) (by decide) (fun _ => Or.inl rfl) rfl

/-- C2 counterexample: with `attempts = 2` and an empty delays sequence, a
permanently retryable operation is invoked only once and the wrapper dies
with `IndexError` (`delays[-1]` on an empty tuple) instead of being invoked
`attempts` times and raising `JobRetryExceededError`. -/
theorem retry_empty_delays_counterexample :
    retry 2 [] (fun _ => .retryable) = ⟨1, [], .indexError⟩ ∧
    ¬((retry 2 [] (fun _ => .retryable)).calls = 2 ∧
      (retry 2 [] (fun _ => .retryable)).outcome = .exhausted) := by
  refine ⟨by decide, by decide⟩

theorem retryAux_zero_sleeps (delays : List Int) (f : Nat → CallResult)
    (a : Nat) : (retryAux delays f a 0).sleeps = [] := by
  cases hfa : f a <;> simp [retryAux, hfa]

theorem retryAux_term_sleeps (delays : List Int) (f : Nat → CallResult)
    (a rem : Nat) (h : f a = .ok ∨ f a = .fatal) :
    (retryAux delays f a rem).sleeps = [] := by
  cases rem <;> rcases h with h | h <;> simp [retryAux, h]

theorem retryAux_succ_fail (delays : List Int) (f : Nat → CallResult)
    (a rem' : Nat) (h : f a = .retryable ∨ f a = .other)
    (hd : delays ≠ []) :
    retryAux delays f a (rem' + 1) =
      ⟨(retryAux delays f (a + 1) rem').calls,
        delays.getD (min (a - 1) (delays.length - 1)) 0 ::
          (retryAux delays f (a + 1) rem').sleeps,
        (retryAux delays f (a + 1) rem').outcome⟩ := by
  have hbe : delays.isEmpty = false := by
    cases delays with
    | nil => exact absurd rfl hd
    | cons x xs => rfl
  rcases h with h | h <;> simp [retryAux, h, hbe]

theorem retryAux_sleep_index (delays : List Int) (f : Nat → CallResult)
    (hd : delays ≠ []) :
    ∀ rem a k, 1 ≤ a →
      k < (retryAux delays f a rem).sleeps.length →
      (retryAux delays f a rem).sleeps.getD k 0 =
        delays.getD (min (a - 1 + k) (delays.length - 1)) 0 := by
  intro rem
  induction rem with
  | zero =>
      intro a k _ hk
      rw [retryAux_zero_sleeps] at hk
      simp at hk
  | succ rem' ih =>
      intro a k ha hk
      cases hfa : f a with
      | ok =>
          rw [retryAux_term_sleeps delays f a _ (Or.inl hfa)] at hk
          simp at hk
      | fatal =>
          rw [retryAux_term_sleeps delays f a _ (Or.inr hfa)] at hk
          simp at hk
      | retryable | other =>
          first
          | rw [retryAux_succ_fail delays f a rem' (Or.inl hfa) hd] at hk ⊢
          | rw [retryAux_succ_fail delays f a rem' (Or.inr hfa) hd] at hk ⊢
          cases k with
          | zero => simp
          | succ k' =>
              simp only [List.getD_cons_succ]
              simp only [List.length_cons, Nat.succ_lt_succ_iff] at hk
              have := ih (a + 1) k' (by omega) hk
              rw [this]
              congr 1
              omega

/-- C7: whenever the wrapper sleeps between attempts (non-empty delays),
the sleep recorded after the `(k+1)`-th failing attempt — position `k`
(0-based) in the sleep trace — is `delays[min(k, len(delays)-1)]`; a short
delay list hence yields a fixed-tail backoff. -/
theorem retry_sleep_schedule (attempts : Nat) (delays : List Int)
    (f : Nat → CallResult) (hd : delays ≠ []) (k : Nat)
    (hk : k < (retry attempts delays f).sleeps.length) :
    (retry attempts delays f).sleeps.getD k 0 =
      delays.getD (min k (delays.length - 1)) 0 := by
  unfold retry at hk ⊢
  by_cases h0 : attempts = 0
  · rw [h0] at hk; simp at hk
  · rw [if_neg h0] at hk ⊢
    have := retryAux_sleep_index delays f hd (attempts - 1) 1 k
      (by omega) hk
    simpa using this

/-- Witness for C7: `attempts = 4`, `delays = [5, 10]`, always-retryable
operation → the third sleep (0-based index 2) is the clamped tail 10. -/
theorem retry_sleep_schedule_witness :
    (retry 4 [5, 10] (fun _ => .retryable)).sleeps.getD 2 0 = 10 := by
  have h := retry_sleep_schedule 4 [5, 10] (fun _ => .retryable)
    (by decide) 2 (by decide)
  simpa using h

/-- C10: with `attempts ≥ 2` and an empty delays sequence, a first-attempt
retryable (or unclassified) failure makes the wrapper raise `IndexError`
from `delays[-1]` after exactly one invocation: no sleep, no retry, no
`JobRetryExceededError`. -/
theorem retry_empty_delays_indexError (attempts : Nat)
    (f : Nat → CallResult) (h2 : 2 ≤ attempts)
    (hf : f 1 = .retryable ∨ f 1 = .other) :
    retry attempts [] f = ⟨1, [], .indexError⟩ := by
  have hne : attempts ≠ 0 := by omega
  unfold retry
  rw [if_neg hne]
  obtain ⟨rem', hrem⟩ : ∃ rem', attempts - 1 = rem' + 1 := ⟨attempts - 2, by omega⟩
  rw [hrem]
  rcases hf with h | h <;> simp [retryAux, h]

/-- Witness for C10 at `attempts = 2`. -/
theorem retry_empty_delays_indexError_witness :
    retry 2 [] (fun _ => .other) = ⟨1, [], .indexError⟩ :=
  retry_empty_delays_indexError 2 (fun _ => .other) (by decide)
    (Or.inr rfl)

/-! ## Progress tracker (`src/runtime/progress.py`)

Counters are Python ints that are only ever incremented; `_in_progress` is
decremented through `max(0, x - 1)`, which over the naturals coincides with
truncated subtraction.  The float quantities (`elapsed`, `rate`, `eta`) are
modelled by exact rationals; the branch structure of `snapshot` depends
only on zero tests, which agree between floats and rationals. -/

/-- Mutable counter state of `Progress` (total/completed/failed/skipped/
in_progress); `start_ts` is replaced by passing `elapsed` to `snapshot`
explicitly. -/
structure ProgressState where
  total : Nat
  completed : Nat
  failed : Nat
  skipped : Nat
  in_progress : Nat
  deriving DecidableEq, Repr

/-- Method `Progress.start(total)`: reset all counters. -/
def ProgressState.start (total : Nat) : ProgressState :=
  ⟨total, 0, 0, 0, 0⟩

/-- Method `Progress.begin_job()`. -/
def ProgressState.begin_job (p : ProgressState) : ProgressState :=
  { p with in_progress := p.in_progress + 1 }

/-- Method `Progress.mark_completed()`; `max(0, in_progress - 1)` is `Nat`
truncated subtraction. -/
def ProgressState.mark_completed (p : ProgressState) : ProgressState :=
  { p with completed := p.completed + 1, in_progress := p.in_progress - 1 }

/-- Method `Progress.mark_failed()`. -/
def ProgressState.mark_failed (p : ProgressState) : ProgressState :=
  { p with failed := p.failed + 1, in_progress := p.in_progress - 1 }

/-- Method `Progress.mark_skipped()`. -/
def ProgressState.mark_skipped (p : ProgressState) : ProgressState :=
  { p with skipped := p.skipped + 1, in_progress := p.in_progress - 1 }

/-- Method `Progress.finish()`: zero the in-flight counter. -/
def ProgressState.finish (p : ProgressState) : ProgressState :=
  { p with in_progress := 0 }

/-- The immutable `ProgressSnapshot` dataclass. -/
structure ProgressSnapshot where
  total : Nat
  completed : Nat
  failed : Nat
  skipped : Nat
  in_progress : Nat
  elapsed_sec : ℚ
  eta_sec : Option ℚ
  deriving DecidableEq, Repr

/-- Method `Progress.snapshot()` at a given elapsed time.  Python truthiness:
`rate = processed / elapsed if elapsed and processed else 0.0` tests both
floats/ints against zero, and `eta = remaining / rate if rate else None`;
`remaining = max(0, total - processed)` is `Nat` truncated subtraction. -/
def ProgressState.snapshot (p : ProgressState) (elapsed : ℚ) :
    ProgressSnapshot :=
  let processed : Nat := p.completed + p.failed + p.skipped
  let rate : ℚ :=
    if elapsed ≠ 0 ∧ processed ≠ 0 then (processed : ℚ) / elapsed else 0
  let remaining : Nat := p.total - processed
  let eta : Option ℚ :=
    if rate ≠ 0 then some ((remaining : ℚ) / rate) else none
  ⟨p.total, p.completed, p.failed, p.skipped, p.in_progress, elapsed, eta⟩

/-- C4 (amended): with positive elapsed time, `eta_sec` is `None` exactly
when no job has been PROCESSED yet (completed + failed + skipped = 0) —
not "completed" alone: a failed or skipped job already makes the rate
positive and the ETA defined.  When processed ≠ 0 and processed ≤ total,
`eta = (total - processed) / rate` with `rate = processed / elapsed`. -/
theorem snapshot_eta_eq (p : ProgressState) (elapsed : ℚ)
    (hel : 0 < elapsed) :
    (p.snapshot elapsed).eta_sec =
      if p.completed + p.failed + p.skipped = 0 then none
      else
        some (((p.total - (p.completed + p.failed + p.skipped) : Nat) : ℚ) /
          (((p.completed + p.failed + p.skipped : Nat) : ℚ) / elapsed)) := by
  have hne : elapsed ≠ 0 := ne_of_gt hel
  unfold ProgressState.snapshot
  by_cases hproc : p.completed + p.failed + p.skipped = 0
  · simp [hproc]
  · have hpos : (0 : ℚ) < ((p.completed + p.failed + p.skipped : Nat) : ℚ) := by
      exact_mod_cast Nat.pos_of_ne_zero hproc
    have hrate : ((p.completed + p.failed + p.skipped : Nat) : ℚ) / elapsed ≠ 0 :=
      ne_of_gt (div_pos hpos hel)
    simp [hproc, hne, hrate]
    intro h
    exact hproc (by exact_mod_cast h)

theorem snapshot_eta_none_iff_unprocessed (p : ProgressState) (elapsed : ℚ)
    (hel : 0 < elapsed) :
    ((p.snapshot elapsed).eta_sec = none ↔
      p.completed + p.failed + p.skipped = 0) ∧
    (p.completed + p.failed + p.skipped ≠ 0 →
      p.completed + p.failed + p.skipped ≤ p.total →
      (p.snapshot elapsed).eta_sec =
        some (((p.total : ℚ) - ((p.completed + p.failed + p.skipped : Nat) : ℚ)) /
          (((p.completed + p.failed + p.skipped : Nat) : ℚ) / elapsed))) := by
  rw [snapshot_eta_eq p elapsed hel]
  constructor
  · by_cases hproc : p.completed + p.failed + p.skipped = 0 <;>
      simp [hproc]
  · intro hproc hle
    rw [if_neg hproc, Nat.cast_sub hle]

/-- Witness for the amended C4: 2 completed of 5 total in 4 seconds →
rate 1/2 per second, ETA = 3/(1/2) = 6 seconds. -/
theorem snapshot_eta_none_iff_unprocessed_witness :
    ((ProgressState.mk 5 2 0 0 0).snapshot 4).eta_sec = some 6 := by
  have h := (snapshot_eta_none_iff_unprocessed ⟨5, 2, 0, 0, 0⟩ 4
    (by norm_num)).2 (by norm_num) (by norm_num)
  rw [h]
  norm_num

/-- C4 counterexample: one FAILED job (none completed), total 2, elapsed
1 s → the code's rate is 1/1 > 0 and `eta_sec = some 1`, not `None`, even
though no job has completed yet. -/
theorem snapshot_eta_defined_without_completions :
    (ProgressState.mk 2 0 1 0 0).completed = 0 ∧
    ((ProgressState.mk 2 0 1 0 0).snapshot 1).eta_sec = some 1 := by
  constructor
  · rfl
  · unfold ProgressState.snapshot
    norm_num

/-! ## Step runner (`src/runtime/runner.py`)

`StepRunner.run` submits every job to a thread pool; each job runs
`_process_job` independently, and all Progress mutations are single
increments under one lock, so the counting behaviour of a run is that of
folding the per-job branch structure of `_process_job` over the job list.
Each job's behaviour is abstracted by an oracle: whether the shutdown flag
was set when the job was picked up, and how `_safe_process` (the
retry-wrapped `_execute_job`) terminated for it. -/

/-- How `self._safe_process(job)` terminates for one job, as observed by
`_process_job`'s `except` clauses: normal return, `FatalStepError`,
`JobRetryExceededError`, or any other exception (including the empty-delays
`IndexError` from the retry wrapper). -/
inductive ExecOutcome where
  | success
  | fatal
  | exhausted
  | unexpected
  deriving DecidableEq, Repr

/-- The effect of `_process_job` on the progress counters: the
shutdown-skip branch marks skipped without `begin_job`; every other branch
first runs `begin_job` and then marks completed on success or failed on
any of the three error classes. -/
def processJobProgress (shutdown : Bool) (outcome : ExecOutcome)
    (p : ProgressState) : ProgressState :=
  if shutdown then p.mark_skipped
  else
    match outcome with
    | .success => p.begin_job.mark_completed
    | .fatal => p.begin_job.mark_failed
    | .exhausted => p.begin_job.mark_failed
    | .unexpected => p.begin_job.mark_failed

/-- Method `StepRunner.run(jobs)` as seen by the progress counters:
`start(total=len(jobs))`, one `_process_job` per submitted job (the
`for future in as_completed(...)` loop catches every exception a job
re-raised, so no job outcome stops the collection of the others), then
`finish()`. -/
def runProgress (oracle : List (Bool × ExecOutcome)) : ProgressState :=
  (oracle.foldl (fun p ob => processJobProgress ob.1 ob.2 p)
    (ProgressState.start oracle.length)).finish

theorem processJobProgress_buckets (shutdown : Bool) (o : ExecOutcome)
    (p : ProgressState) :
    (processJobProgress shutdown o p).completed +
        (processJobProgress shutdown o p).failed +
        (processJobProgress shutdown o p).skipped =
      p.completed + p.failed + p.skipped + 1 ∧
    (processJobProgress shutdown o p).total = p.total := by
  cases shutdown <;> cases o <;>
    simp [processJobProgress, ProgressState.begin_job,
      ProgressState.mark_completed, ProgressState.mark_failed,
      ProgressState.mark_skipped] <;> omega

theorem runProgress_fold_buckets (oracle : List (Bool × ExecOutcome))
    (p : ProgressState) :
    (oracle.foldl (fun p ob => processJobProgress ob.1 ob.2 p) p).completed +
        (oracle.foldl (fun p ob => processJobProgress ob.1 ob.2 p) p).failed +
        (oracle.foldl (fun p ob => processJobProgress ob.1 ob.2 p) p).skipped =
      p.completed + p.failed + p.skipped + oracle.length ∧
    (oracle.foldl (fun p ob => processJobProgress ob.1 ob.2 p) p).total =
      p.total := by
  induction oracle generalizing p with
  | nil => simp
  | cons ob rest ih =>
      simp only [List.foldl_cons, List.length_cons]
      have h1 := processJobProgress_buckets ob.1 ob.2 p
      have h2 := ih (processJobProgress ob.1 ob.2 p)
      refine ⟨?_, by rw [h2.2, h1.2]⟩
      rw [h2.1, h1.1]
      omega

/-- C3: after `run()` returns, `completed + failed + skipped = total`
(with `total` the number of submitted jobs) and `in_progress = 0`, for
every job list and every combination of per-job outcomes: each job lands
in exactly one counted bucket. -/
theorem run_counts_every_job (oracle : List (Bool × ExecOutcome)) :
    (runProgress oracle).completed + (runProgress oracle).failed +
        (runProgress oracle).skipped = (runProgress oracle).total ∧
    (runProgress oracle).total = oracle.length ∧
    (runProgress oracle).in_progress = 0 := by
  unfold runProgress
  have h := runProgress_fold_buckets oracle (ProgressState.start oracle.length)
  simp only [ProgressState.finish]
  refine ⟨?_, ?_, trivial⟩
  · rw [h.1, h.2]
    simp [ProgressState.start]
  · rw [h.2]
    rfl

/-- What one `_process_job` call does beyond the progress counters:
whether the error hooks ran and whether an exception left `_process_job`
toward the pool's result-collection point. -/
structure JobEffect where
  markedCompleted : Bool
  markedFailed : Bool
  markedSkipped : Bool
  errorHooksRan : Bool
  raisedToPool : Bool
  deriving DecidableEq, Repr

/-- The branch structure of `_process_job`: shutdown → skip silently;
success → completed, no error hooks, returns; `FatalStepError` → failed,
error hooks, `raise`; `JobRetryExceededError` → failed, error hooks,
`return` (swallowed); any other exception → failed, error hooks,
`raise`. -/
def processJobEffect (shutdown : Bool) (outcome : ExecOutcome) : JobEffect :=
  if shutdown then ⟨false, false, true, false, false⟩
  else
    match outcome with
    | .success => ⟨true, false, false, false, false⟩
    | .fatal => ⟨false, true, false, true, true⟩
    | .exhausted => ⟨false, true, false, true, false⟩
    | .unexpected => ⟨false, true, false, true, true⟩

/-- C8: a retry-exhausted job is marked failed, runs error hooks and is
swallowed; a fatal or unexpected error is marked failed, runs error hooks
and re-raises to the pool; and since the pool's collection loop catches
whatever `_process_job` re-raises, every job is still counted — no
failure aborts the run or its sibling jobs. -/
theorem runner_failure_isolation (o : ExecOutcome)
    (oracle : List (Bool × ExecOutcome))
    (hfail : o = .fatal ∨ o = .unexpected) :
    processJobEffect false .exhausted =
      ⟨false, true, false, true, false⟩ ∧
    processJobEffect false o = ⟨false, true, false, true, true⟩ ∧
    (runProgress oracle).completed + (runProgress oracle).failed +
        (runProgress oracle).skipped = oracle.length := by
  refine ⟨rfl, ?_, ?_⟩
  · rcases hfail with h | h <;> rw [h] <;> rfl
  · have h := run_counts_every_job oracle
    rw [h.1, h.2.1]

/-- Witness for C8 at a concrete mixed batch: one fatal, one exhausted,
one unexpected, one success — all four counted. -/
theorem runner_failure_isolation_witness :
    processJobEffect false .exhausted = ⟨false, true, false, true, false⟩ ∧
    processJobEffect false .fatal = ⟨false, true, false, true, true⟩ ∧
    (runProgress [(false, .fatal), (false, .exhausted),
        (false, .unexpected), (false, .success)]).completed +
      (runProgress [(false, .fatal), (false, .exhausted),
        (false, .unexpected), (false, .success)]).failed +
      (runProgress [(false, .fatal), (false, .exhausted),
        (false, .unexpected), (false, .success)]).skipped = 4 :=
  runner_failure_isolation .fatal
    [(false, .fatal), (false, .exhausted), (false, .unexpected),
      (false, .success)] (Or.inl rfl)

/-! ## Attempt counter (`StepRunner._execute_job` / `_process_job`)

The counter entry for one `job_id` (no other key is touched while this job
runs).  `_execute_job` reads `counters.get(job_id, 0) + 1`, stores it back
and stamps it into `payload["_attempt"]`; on normal return it pops the
entry.  On an exception the pop at the end of `_execute_job` is skipped,
the retry wrapper may call `_execute_job` again, and whichever `except`
branch of `_process_job` finally receives the error pops the entry. -/

/-- The retry loop of `_safe_process` threading the attempt-counter entry
for this job: from attempt `a` with `rem` more attempts allowed and
counter entry `c`.  Returns the list of values stamped into
`payload["_attempt"]` (in order), the counter entry as `_execute_job` /
the retry wrapper leaves it, and the wrapper's outcome. -/
def execRetryAux (delays : List Int) (f : Nat → CallResult) :
    Nat → Nat → Option Nat → List Nat × Option Nat × Outcome
  | a, rem, c =>
    let attempt := c.getD 0 + 1
    match f a with
    | .ok => ([attempt], none, .success)
    | .fatal => ([attempt], some attempt, .fatalRaised)
    | .retryable | .other =>
      match rem with
      | 0 => ([attempt], some attempt, .exhausted)
      | rem' + 1 =>
        if delays.isEmpty then ([attempt], some attempt, .indexError)
        else
          let r := execRetryAux delays f (a + 1) rem' (some attempt)
          (attempt :: r.1, r.2)

/-- The view `_process_job` has of the counter entry: run the retry-wrapped
`_execute_job` starting from counter entry `c0`; every `except` branch
(fatal, retry-exceeded, unexpected — the latter also receiving the
empty-delays `IndexError`) pops the entry; the success path already popped
it inside `_execute_job`.  With `attempts = 0` the loop body never runs. -/
def processJobCounter (delays : List Int) (f : Nat → CallResult)
    (attempts : Nat) (c0 : Option Nat) : List Nat × Option Nat :=
  if attempts = 0 then ([], c0)
  else
    let r := execRetryAux delays f 1 (attempts - 1) c0
    match r.2.2 with
    | .success => (r.1, r.2.1)
    | .fatalRaised => (r.1, none)
    | .exhausted => (r.1, none)
    | .indexError => (r.1, none)

theorem execRetryAux_stamps (delays : List Int) (f : Nat → CallResult) :
    ∀ rem a c, c.getD 0 + 1 = a →
      (execRetryAux delays f a rem c).1 =
        List.range' a (execRetryAux delays f a rem c).1.length ∧
      ((execRetryAux delays f a rem c).2.2 = .success →
        (execRetryAux delays f a rem c).2.1 = none) ∧
      ((execRetryAux delays f a rem c).2.2 ≠ .success →
        ∃ v, (execRetryAux delays f a rem c).2.1 = some v) := by
  intro rem
  induction rem with
  | zero =>
      intro a c hc
      cases hfa : f a <;>
        simp [execRetryAux, hfa, hc, List.range']
  | succ rem' ih =>
      intro a c hc
      cases hfa : f a with
      | ok => simp [execRetryAux, hfa, hc, List.range']
      | fatal => simp [execRetryAux, hfa, hc, List.range']
      | retryable | other =>
          by_cases hde : delays.isEmpty
          · simp [execRetryAux, hfa, hde, hc, List.range']
          · have hrec := ih (a + 1) (some a) (by simp)
            simp only [execRetryAux, hfa, hde, Bool.false_eq_true,
              if_false, hc]
            refine ⟨?_, hrec.2.1, hrec.2.2⟩
            simp only [List.length_cons, List.range'_succ,
              List.cons.injEq, true_and]
            exact hrec.1

/-- C9: starting from a fresh (absent) counter entry, the value stamped
into `payload["_attempt"]` before the n-th execution attempt is n — the
stamp list is `[1, 2, ..., calls]` — and once the job reaches a terminal
state (success, fatal, retry-exhausted, or unexpected, the latter also
covering the empty-delays `IndexError`) the counter entry is removed. -/
theorem attempt_counter_stamps_and_cleanup (attempts : Nat)
    (delays : List Int) (f : Nat → CallResult) :
    (processJobCounter delays f attempts none).1 =
      List.range' 1 (processJobCounter delays f attempts none).1.length ∧
    (processJobCounter delays f attempts none).2 = none := by
  unfold processJobCounter
  by_cases h0 : attempts = 0
  · simp [h0]
  · rw [if_neg h0]
    have h := execRetryAux_stamps delays f (attempts - 1) 1 none rfl
    cases hout : (execRetryAux delays f 1 (attempts - 1) none).2.2 with
    | success => simp only [hout]; exact ⟨h.1, h.2.1 hout⟩
    | fatalRaised => simp only [hout]; exact ⟨h.1, trivial⟩
    | exhausted => simp only [hout]; exact ⟨h.1, trivial⟩
    | indexError => simp only [hout]; exact ⟨h.1, trivial⟩

/-! ## Rate limiter (`src/runtime/rate_limit.py`)

Token amounts and timestamps are floats in the source, modelled here by
exact rationals; every comparison the code performs (`elapsed <= 0`,
`tokens >= weight`, the `min` cap) is order-respecting in both. -/

/-- The `_Bucket` dataclass (without its lock). -/
structure Bucket where
  capacity : ℚ
  refill_rate : ℚ
  tokens : ℚ
  updated_at : ℚ
  deriving DecidableEq, Repr

/-- One bucket as `RateLimiter.__init__` builds it from a `RateLimit`
configuration entry: `refill_rate = calls_per_minute / 60.0`, tokens
start full at `burst`. -/
def mkBucket (calls_per_minute burst : Nat) (now : ℚ) : Bucket :=
  ⟨(burst : ℚ), (calls_per_minute : ℚ) / 60, (burst : ℚ), now⟩

/-- Method `RateLimiter._refill`: lazily add `elapsed * refill_rate` tokens,
capped at `capacity`; a non-positive elapsed time is a no-op. -/
def Bucket.refill (b : Bucket) (now : ℚ) : Bucket :=
  let elapsed := now - b.updated_at
  if elapsed ≤ 0 then b
  else
    { b with
      tokens := min b.capacity (b.tokens + elapsed * b.refill_rate),
      updated_at := now }

/-- One iteration of the `while True` loop in `RateLimiter.acquire` for a
registered bucket: refill, then debit `weight` tokens and return (`true`)
if enough are available, else leave the bucket and sleep/retry
(`false`). -/
def Bucket.acquireAttempt (b : Bucket) (now weight : ℚ) : Bucket × Bool :=
  let b' := b.refill now
  if weight ≤ b'.tokens then
    ({ b' with tokens := b'.tokens - weight }, true)
  else
    (b', false)

/-- The bucket states a sequence of acquire attempts (observation times
paired with weights) drives a bucket through. -/
def Bucket.acquireSeq (b : Bucket) (ops : List (ℚ × ℚ)) : Bucket :=
  ops.foldl (fun b op => (b.acquireAttempt op.1 op.2).1) b

/-- The bucket invariant the spec states: `0 ≤ tokens ≤ capacity`. -/
def Bucket.Inv (b : Bucket) : Prop :=
  0 ≤ b.tokens ∧ b.tokens ≤ b.capacity

instance (b : Bucket) : Decidable b.Inv := by
  unfold Bucket.Inv
  infer_instance

theorem Bucket.refill_capacity (b : Bucket) (now : ℚ) :
    (b.refill now).capacity = b.capacity ∧
    (b.refill now).refill_rate = b.refill_rate := by
  unfold Bucket.refill
  by_cases h : now - b.updated_at ≤ 0 <;> simp [h]

theorem Bucket.acquireAttempt_capacity (b : Bucket) (now weight : ℚ) :
    (b.acquireAttempt now weight).1.capacity = b.capacity ∧
    (b.acquireAttempt now weight).1.refill_rate = b.refill_rate := by
  unfold Bucket.acquireAttempt
  have h := b.refill_capacity now
  by_cases hw : weight ≤ (b.refill now).tokens <;>
    simp [hw, h.1, h.2]

theorem Bucket.refill_inv (b : Bucket) (now : ℚ) (hcap : 0 ≤ b.capacity)
    (hrate : 0 ≤ b.refill_rate) (hinv : b.Inv) : (b.refill now).Inv := by
  unfold Bucket.refill Bucket.Inv
  by_cases h : now - b.updated_at ≤ 0
  · simpa [h] using hinv
  · push_neg at h
    simp only [if_neg (not_le.mpr h)]
    constructor
    · exact le_min hcap
        (add_nonneg hinv.1 (mul_nonneg (le_of_lt h) hrate))
    · exact min_le_left _ _

theorem Bucket.acquireAttempt_inv (b : Bucket) (now weight : ℚ)
    (hcap : 0 ≤ b.capacity) (hrate : 0 ≤ b.refill_rate)
    (hw : 0 ≤ weight) (hinv : b.Inv) :
    (b.acquireAttempt now weight).1.Inv := by
  unfold Bucket.acquireAttempt
  have hr := b.refill_inv now hcap hrate hinv
  by_cases hav : weight ≤ (b.refill now).tokens
  · simp only [hav, if_true]
    refine ⟨?_, ?_⟩
    · show 0 ≤ (b.refill now).tokens - weight
      linarith
    · show (b.refill now).tokens - weight ≤ (b.refill now).capacity
      have h2 := hr.2
      linarith
  · simpa [hav] using hr

/-- C5: starting from any bucket built by the constructor from a
configuration (`calls_per_minute > 0`, `burst ≥ 1`), after any prefix of
any sequence of acquire attempts with non-negative weights,
`0 ≤ tokens ≤ capacity` holds: the lazy refill caps at capacity, and
tokens are debited only when at least `weight` tokens are available. -/
theorem rate_limiter_token_bounds (calls_per_minute burst : Nat)
    (t0 : ℚ) (ops : List (ℚ × ℚ)) (n : Nat)
    (hw : ∀ op ∈ ops, 0 ≤ op.2) :
    ((mkBucket calls_per_minute burst t0).acquireSeq (ops.take n)).Inv := by
  have hgen : ∀ (l : List (ℚ × ℚ)) (b : Bucket), (∀ op ∈ l, 0 ≤ op.2) →
      0 ≤ b.capacity → 0 ≤ b.refill_rate → b.Inv → (b.acquireSeq l).Inv := by
    intro l
    induction l with
    | nil => intro b _ _ _ hinv; exact hinv
    | cons op rest ih =>
        intro b hops hcap hrate hinv
        have hstep := b.acquireAttempt_inv op.1 op.2 hcap hrate
          (hops op (List.mem_cons_self op rest)) hinv
        have hpres := b.acquireAttempt_capacity op.1 op.2
        exact ih _ (fun q hq => hops q (List.mem_cons_of_mem op hq))
          (hpres.1 ▸ hcap) (hpres.2 ▸ hrate) hstep
  apply hgen
  · intro op hop
    exact hw op (List.mem_of_mem_take hop)
  · exact Nat.cast_nonneg burst
  · exact div_nonneg (Nat.cast_nonneg calls_per_minute) (by norm_num)
  · exact ⟨Nat.cast_nonneg burst, le_refl _⟩

/-- Witness for C5: bucket `{calls_per_minute: 60, burst: 1}`, two
acquire attempts (one immediate success, one refused). -/
theorem rate_limiter_token_bounds_witness :
    ((mkBucket 60 1 0).acquireSeq ([((1 : ℚ) / 2, 1), (1, 1)].take 2)).Inv :=
  rate_limiter_token_bounds 60 1 0 [((1 : ℚ) / 2, 1), (1, 1)] 2
    (by intro op hop; fin_cases hop <;> norm_num)

/-- Association lookup over the limiter's named buckets
(`self._buckets.get(bucket_name)`). -/
def lookupBucket : List (String × Bucket) → String → Option Bucket
  | [], _ => none
  | p :: rest, k => if p.1 = k then some p.2 else lookupBucket rest k

/-- Replace the state of the named bucket, leaving all other buckets
untouched (the mutation `bucket.tokens -= weight` seen at map level). -/
def updateBucket (rl : List (String × Bucket)) (name : String)
    (b : Bucket) : List (String × Bucket) :=
  rl.map (fun p => if p.1 = name then (name, b) else p)

/-- Method `RateLimiter.acquire(bucket_name, weight)` as observed at one loop
iteration: with no bucket registered under the name it returns
immediately leaving every bucket untouched; otherwise it refills and
either debits (returning) or leaves the bucket unchanged and sleeps.
The Bool records whether the call returned at this iteration. -/
def RateLimiter.acquire (rl : List (String × Bucket)) (name : String)
    (now weight : ℚ) : List (String × Bucket) × Bool :=
  match lookupBucket rl name with
  | none => (rl, true)
  | some b =>
      let r := b.acquireAttempt now weight
      (updateBucket rl name r.1, r.2)

/-- C6: `acquire` on a name with no registered bucket returns immediately
as a no-op — every bucket's state is exactly what it was — for every
limiter state, name, time and weight. -/
theorem acquire_unknown_bucket_noop (rl : List (String × Bucket))
    (name : String) (now weight : ℚ)
    (hmiss : lookupBucket rl name = none) :
    RateLimiter.acquire rl name now weight = (rl, true) := by
  unfold RateLimiter.acquire
  rw [hmiss]

/-- Witness for C6: a limiter with one bucket "llm", acquired under the
unregistered name "tts". -/
theorem acquire_unknown_bucket_noop_witness :
    RateLimiter.acquire [("llm", mkBucket 60 1 0)] "tts" 1 1 =
      ([("llm", mkBucket 60 1 0)], true) :=
  acquire_unknown_bucket_noop [("llm", mkBucket 60 1 0)] "tts" 1 1 rfl

end LimaContent
